import Mathlib

/- Verification of the image acquisition, deduplication and caching pipeline of the
   novaview-lp repository (image_service.py with its utils.py and config.py
   collaborators), shallowly embedded in Lean.

   Conventions of the embedding:
   - Python strings are Lean String values; character-level work happens on String.data.
   - Python byte sizes and counts are Nat; Python integers that can step below zero
     (the JPEG quality window bounds) are Int, and the floor division of Python is
     the Int division of Lean (both round toward negative infinity for divisor 2).
   - Impure collaborator calls (PIL, the network, the filesystem) become explicit
     function parameters or oracle structures, and the filesystem is a Bool-valued
     membership predicate on paths.
   - Encoded image bytes are represented by the (codec, quality) pair that produced
     them; only sizes and extensions matter to the verified logic. -/

namespace NovaViewLP

/-- config.SUPPORTED_EXTENSIONS: the recognized image file extensions. -/
def SUPPORTED_EXTENSIONS : List String :=
  [".jpg", ".jpeg", ".png", ".webp", ".gif", ".bmp"]

/-- config.FINAL_IMAGES_DIR. -/
def FINAL_IMAGES_DIR : String := "images"

/-- config.CANDIDATES_CACHE_DIR. -/
def CANDIDATES_CACHE_DIR : String := "images/cache"

/-- config.TARGET_FILE_SIZE: 25KB target for optimized images. -/
def TARGET_FILE_SIZE : Nat := 25 * 1024

/-- Whitespace test of the Python str.strip call, on the ASCII whitespace
    characters: space, tab, newline, carriage return, vertical tab, form feed. -/
def isPyWhitespace (c : Char) : Bool :=
  c.toNat = 32 || c.toNat = 9 || c.toNat = 10 || c.toNat = 13 ||
    c.toNat = 11 || c.toNat = 12

/-- The Python str.lower call on the ASCII range: maps A-Z to a-z and fixes
    every other character. -/
def pyLower (c : Char) : Char :=
  if 65 ≤ c.toNat && c.toNat ≤ 90 then Char.ofNat (c.toNat + 32) else c

/-- Membership in the character class kept by re.sub in
    sanitize_keyword_for_filename: lowercase letters, digits, underscore, hyphen. -/
def isAllowedChar (c : Char) : Bool :=
  (97 ≤ c.toNat && c.toNat ≤ 122) || (48 ≤ c.toNat && c.toNat ≤ 57) ||
    c.toNat = 95 || c.toNat = 45

/-- The Python str.strip call: drop leading and trailing whitespace. -/
def pyStrip (l : List Char) : List Char :=
  ((l.dropWhile isPyWhitespace).reverse.dropWhile isPyWhitespace).reverse

/-- Character-level core of utils.sanitize_keyword_for_filename: strip, lower,
    replace every space (and only the space character) by an underscore, then
    remove every character outside the class a-z 0-9 underscore hyphen. -/
def sanitizeChars (l : List Char) : List Char :=
  ((((pyStrip l).map pyLower).map fun c => if c = ' ' then '_' else c).filter
    isAllowedChar)

/-- utils.sanitize_keyword_for_filename. The final disjunction with the string
    "image" models the Python expression (keyword or "image"), which maps an
    empty result to the fallback token. -/
def sanitize_keyword_for_filename (s : String) : String :=
  let r := sanitizeChars s.data
  if r.isEmpty then "image" else String.mk r

/-- Modelled from the wording of claim C8, for comparison with the code: the
    same pipeline but with every internal whitespace character (not only the
    space) replaced by an underscore. -/
def sanitizeWhitespaceClaim (s : String) : String :=
  let r := ((((pyStrip s.data).map pyLower).map fun c =>
    if isPyWhitespace c then '_' else c).filter isAllowedChar)
  if r.isEmpty then "image" else String.mk r

/-- Single-character pipeline of the amended claim C8: lowercase the character,
    turn a space into an underscore, and keep the result only if it lies in the
    class a-z 0-9 underscore hyphen. -/
def sanitizeCharStep (c : Char) : Option Char :=
  let d := pyLower c
  let e := if d = ' ' then '_' else d
  if isAllowedChar e then some e else none

/-- The amended claim C8 as a definition: strip the ends, push every character
    through sanitizeCharStep, and fall back to "image" on an empty result. -/
def sanitizeAmendedClaim (s : String) : String :=
  let r := (pyStrip s.data).filterMap sanitizeCharStep
  if r.isEmpty then "image" else String.mk r

/-- A perceptual fingerprint: the bit matrix of imagehash.dhash, flattened to a
    list of bits. compute_image_hash either yields one or fails (none). -/
abbrev PHash := List Bool

/-- Distance between two fingerprints: the number of differing bits, the value
    of abs(h1 - h2) on imagehash values (their subtraction is already the
    non-negative count of differing bits, so abs is the identity). -/
def hashDist (a b : PHash) : Nat := ((a.zipWith (fun x y => x != y) b).count true)

/-- A candidate as handled by select_diverse_images: (file path, byte size). -/
abbrev Cand := String × Nat

/-- A hashed candidate: (path, size, fingerprint). -/
abbrev HCand := String × Nat × PHash

/-- Insert a into a list, directly before the first element b with before a b;
    building block of the stable sort below. -/
def stableInsert (before : α → α → Bool) (a : α) : List α → List α
  | [] => [a]
  | b :: bs => if before a b then a :: b :: bs else b :: stableInsert before a bs

/-- Stable sort, modelling the Python list.sort. Sorting a list x :: xs inserts
    x into the sorted xs, and x passes an element only when it must come
    strictly later, so elements that compare equal keep their original order.
    For a sort with key k and reverse=True, instantiate before a b with
    k b ≤ k a. -/
def stableSort (before : α → α → Bool) : List α → List α
  | [] => []
  | a :: as => stableInsert before a (stableSort before as)

/-- Descending-by-size comparison for hashed candidates, the in-group
    group.sort(key=lambda item: item[1], reverse=True). -/
def bySizeDesc (c1 c2 : HCand) : Bool := c2.2.1 ≤ c1.2.1

/-- Byte size of the largest member of a group, max(item[1] for item in g)
    as folded from zero (groups are never empty). -/
def groupMaxSize (g : List HCand) : Nat := g.foldl (fun m c => max m c.2.1) 0

/-- Fingerprint of the first member of a group, group[0][2], the
    representative used by the greedy clustering. -/
def repHash (g : List HCand) : PHash := (g.headD ("", 0, [])).2.2

/-- One iteration of the grouping loop of select_diverse_images: walk the
    existing groups in order, append the candidate to the first group whose
    representative is within the threshold, and otherwise open a new
    single-member group at the end of the group list. -/
def addToGroups (thr : Nat) (c : HCand) : List (List HCand) → List (List HCand)
  | [] => [[c]]
  | g :: gs =>
    if hashDist c.2.2 (repHash g) ≤ thr then (g ++ [c]) :: gs
    else g :: addToGroups thr c gs

/-- The full greedy clustering: fold the hashed candidates, in their original
    order, through addToGroups. -/
def buildGroups (thr : Nat) (l : List HCand) : List (List HCand) :=
  l.foldl (fun gs c => addToGroups thr c gs) []

/-- Largest-by-size member of a group: the group is sorted in place by size
    descending and its first element taken (group[0]). -/
def pickLargest (g : List HCand) : HCand := (stableSort bySizeDesc g).headD ("", 0, [])

/-- The hash-computation loop of select_diverse_images: keep, in order, the
    candidates whose perceptual hash succeeds, as (path, size, hash) triples. -/
def hashedCandidates (hashFn : String → Option PHash) (candidates : List Cand) :
    List HCand :=
  candidates.filterMap fun c => (hashFn c.1).map fun h => (c.1, c.2, h)

/-- Descending comparison of groups by the size of their largest member, the
    groups.sort(key=lambda g: max(item[1] for item in g), reverse=True). -/
def byGroupMaxDesc (g1 g2 : List HCand) : Bool := groupMaxSize g2 ≤ groupMaxSize g1

/-- The clustering arm of select_diverse_images, entered when more hashed
    candidates than count exist: group, sort groups by largest-member size,
    take the largest member of each of the first count groups, then run the
    backfill branch. The list named mutated reproduces the state of the
    Python groups list at the backfill: the selection loop sorted, in place,
    exactly the groups it consumed before reaching count, and the backfill
    slices the group list from position len(selected). -/
def selectFromClusters (similarity_threshold count : Nat) (cwh : List HCand) :
    List String :=
  let groups := buildGroups similarity_threshold cwh
  let sorted := stableSort byGroupMaxDesc groups
  let selected := (sorted.take count).map fun g => (pickLargest g).1
  let mutated := (sorted.take count).map (stableSort bySizeDesc) ++ sorted.drop count
  let selected2 :=
    if selected.length < count then
      let remaining := (mutated.drop selected.length).flatten
      let remainingSorted := stableSort bySizeDesc remaining
      selected ++ (remainingSorted.map fun t => t.1).take (count - selected.length)
    else selected
  selected2.take count

/-- image_service.select_diverse_images. The impure perceptual-hash call
    compute_image_hash is passed in as hashFn (none models a hash failure). -/
def select_diverse_images (hashFn : String → Option PHash) (candidates : List Cand)
    (count : Nat) (similarity_threshold : Nat) : List String :=
  if candidates.length ≤ count then candidates.map Prod.fst
  else
    let candidates_with_hash := hashedCandidates hashFn candidates
    if candidates_with_hash.length ≤ count then candidates_with_hash.map fun t => t.1
    else selectFromClusters similarity_threshold count candidates_with_hash

/-- The two encoders used by compress_image_to_target, abstracted to the byte
    size they produce at a given integer quality; none models an encoder
    exception raised by image.save. -/
structure EncodeOracle where
  jpegSize : Int → Option Nat
  webpSize : Int → Option Nat

/-- Which encoder invocation produced the returned bytes. jpegProgressive is
    the binary-search save (optimize plus progressive), jpegBaseline the
    quality-75 fallback save, webp the method-6 WebP save. -/
inductive Codec where
  | jpegProgressive : Codec
  | webp : Codec
  | jpegBaseline : Codec
deriving DecidableEq, Repr

/-- Encoded bytes are identified by the (codec, quality) pair that produced
    them. -/
abbrev Encoded := Codec × Int

/-- The JPEG binary-search loop of compress_image_to_target. The loop state is
    (low, high, best_result as quality-size pair); each unfolding with
    low ≤ high performs exactly one encode attempt, counted in the second
    component of the result. The fuel argument only bounds the number of
    iterations: the window shrinks strictly every iteration, so the caller
    jpegSearch below supplies fuel that provably never runs out. -/
def jpegSearchGo (o : EncodeOracle) (target : Nat) :
    Nat → Int → Int → Option (Int × Nat) → Option (Int × Nat) × Nat
  | 0, _, _, best => (best, 0)
  | Nat.succ fuel, low, high, best =>
    if low ≤ high then
      let quality := (low + high) / 2
      match o.jpegSize quality with
      | none => (best, 1)
      | some size =>
        if size ≤ target then
          let r := jpegSearchGo o target fuel (quality + 1) high (some (quality, size))
          (r.1, r.2 + 1)
        else
          let r := jpegSearchGo o target fuel low (quality - 1) best
          (r.1, r.2 + 1)
    else (best, 0)

/-- The binary-search loop entered at window [low, high]: while low ≤ high,
    try quality (low + high) // 2; on a fitting size record it and move low
    up past the midpoint, otherwise move high below the midpoint; an encoder
    exception breaks out of the loop. The supplied fuel is the initial window
    size, which the strict shrinking makes sufficient. -/
def jpegSearch (o : EncodeOracle) (target : Nat) (low high : Int)
    (best : Option (Int × Nat)) : Option (Int × Nat) × Nat :=
  jpegSearchGo o target (high + 1 - low).toNat low high best

/-- Python comparison size < best_size where best_size starts at infinity:
    none stands for infinity. -/
def ltOptSize (size : Nat) : Option Nat → Bool
  | none => true
  | some b => size < b

/-- Best result so far, as tracked by compress_image_to_target after the JPEG
    phase: the encoded bytes, the chosen extension, and best_size. -/
abbrev BestResult := Option (Encoded × String × Nat)

/-- Byte size stored in the running best result (best_size; none is the
    initial infinity). -/
def bestSize (b : BestResult) : Option Nat := b.map fun e => e.2.2

/-- The WebP phase of compress_image_to_target: walk the fixed quality list;
    adopt the first WebP encoding that both fits the target and is strictly
    smaller than the current best, then break; a WebP encoder exception
    abandons the whole phase, keeping the current best. -/
def webpScan (o : EncodeOracle) (target : Nat) : List Int → BestResult → BestResult
  | [], best => best
  | q :: qs, best =>
    match o.webpSize q with
    | none => best
    | some size =>
      if size ≤ target && ltOptSize size (bestSize best) then
        some ((Codec.webp, q), ".webp", size)
      else webpScan o target qs best

/-- image_service.compress_image_to_target, with the color-mode normalization
    (a pixel-level operation) already folded into the oracle: binary-search
    JPEG quality over [30, 95], scan WebP at qualities 80, 70, 60, 50, and
    fall back to a plain quality-75 JPEG save when no attempt met the target. -/
def compress_image_to_target (o : EncodeOracle) (target_bytes : Nat) : Encoded × String :=
  let afterJpeg := (jpegSearch o target_bytes 30 95 none).1
  let bestJ : BestResult :=
    afterJpeg.map fun qs => ((Codec.jpegProgressive, qs.1), ".jpg", qs.2)
  let best := webpScan o target_bytes [80, 70, 60, 50] bestJ
  match best with
  | some (enc, ext, _) => (enc, ext)
  | none => ((Codec.jpegBaseline, 75), ".jpg")

/-- Scan qualities top, top - 1, ..., stopping at the first (hence highest)
    quality whose encoded size fits the target; n bounds the scanned range. -/
def hiFitGo (f : Int → Nat) (target : Nat) : Nat → Int → Option Int
  | 0, _ => none
  | Nat.succ n, q => if f q ≤ target then some q else hiFitGo f target n (q - 1)

/-- The highest integer quality in [30, 95] whose JPEG encoding fits the
    target, as worded by claim C5. -/
def highestFittingJpeg (f : Int → Nat) (target : Nat) : Option Int :=
  hiFitGo f target 66 95

/-- The WebP quality steps of the spec. -/
def webpQualities : List Int := [80, 70, 60, 50]

/-- The first WebP quality in 80, 70, 60, 50 whose encoding fits the target
    and is strictly smaller than the best JPEG size, as worded by claim C5. -/
def firstAdoptedWebp (w : Int → Nat) (target : Nat) (bestJpegSize : Option Nat) :
    Option Int :=
  webpQualities.find? fun q => w q ≤ target && ltOptSize (w q) bestJpegSize

/-- Modelled from the wording of claim C5, for comparison with the code:
    return the JPEG at the highest fitting quality in [30, 95], replaced by
    the first adopted WebP encoding when one exists, and the quality-75 JPEG
    fallback when no trial met the target. -/
def compressClaimModel (f w : Int → Nat) (target : Nat) : Encoded × String :=
  match firstAdoptedWebp w target ((highestFittingJpeg f target).map f) with
  | some q => ((Codec.webp, q), ".webp")
  | none =>
    match highestFittingJpeg f target with
    | some q => ((Codec.jpegProgressive, q), ".jpg")
    | none => ((Codec.jpegBaseline, 75), ".jpg")

/-- The final-images directory as a set of existing file paths. -/
abbrev FS := String → Bool

/-- Per-candidate outcomes of the impure steps of
    promote_candidates_to_outputs: whether the PIL open-resize-compress body
    succeeds for a source path, which extension compress_image_to_target
    chose for it, whether the written file passes is_file_an_image, and
    whether an os.remove call succeeds (the code swallows its failures). -/
structure PromoteOracle where
  openOk : String → Bool
  chosenExt : String → String
  writtenValid : String → Bool
  removeOk : String → Bool

/-- The guarded removal in promote_candidates_to_outputs: if the path exists,
    try os.remove and swallow a failure. -/
def fsRemoveTry (o : PromoteOracle) (fs : FS) (p : String) : FS :=
  if fs p && o.removeOk p then fun q => if q = p then false else fs q else fs

/-- Writing a file: the path exists afterwards. -/
def fsWrite (fs : FS) (p : String) : FS := fun q => if q = p then true else fs q

/-- os.path.join(FINAL_IMAGES_DIR, f"{keyword_base}_{idx}"), the extensionless
    base path of a final-image slot. -/
def slotBasePath (keyword_base : String) (idx : Nat) : String :=
  FINAL_IMAGES_DIR ++ "/" ++ keyword_base ++ "_" ++ Nat.repr idx

/-- One iteration of promote_candidates_to_outputs: on a successful open, drop
    every supported-extension file at the slot base path, write the newly
    compressed file, and record it as saved when it validates; any exception
    in the body skips to the next candidate. -/
def processSlot (o : PromoteOracle) (keyword_base : String) (idx : Nat) (src : String)
    (fs : FS) (saved : List String) : FS × List String :=
  if o.openOk src then
    let base := slotBasePath keyword_base idx
    let fs1 := SUPPORTED_EXTENSIONS.foldl (fun f e => fsRemoveTry o f (base ++ e)) fs
    let finalPath := base ++ o.chosenExt src
    let fs2 := fsWrite fs1 finalPath
    if o.writtenValid finalPath then (fs2, saved ++ [finalPath]) else (fs2, saved)
  else (fs, saved)

/-- The enumerate(selected_paths, start=1) loop of
    promote_candidates_to_outputs. -/
def promoteAux (o : PromoteOracle) (keyword_base : String) :
    Nat → List String → FS → List String → FS × List String
  | _, [], fs, saved => (fs, saved)
  | idx, src :: rest, fs, saved =>
    let st := processSlot o keyword_base idx src fs saved
    promoteAux o keyword_base (idx + 1) rest st.1 st.2

/-- image_service.promote_candidates_to_outputs over the final-images
    filesystem state: returns the saved files and the resulting state. -/
def promote_candidates_to_outputs (o : PromoteOracle) (keyword_base : String)
    (selected_paths : List String) (fs : FS) : List String × FS :=
  let st := promoteAux o keyword_base 1 selected_paths fs []
  (st.2, st.1)

/-- The image record dictionaries returned to the caller. -/
structure ImageRecord where
  url : String
  thumbnail : String
  title : String
  source : String
deriving DecidableEq, Repr

/-- Collaborators of ImageSearchService.search_images, injected as functions:
    the final-cache completeness check, the final-record projection, the
    candidate-cache listing, the diversity selector, the promoter (returning
    the saved files), and the whole Phase-3 body
    _download_and_select_candidates. -/
structure SearchOracle where
  check_all_images_cached : String → Nat → Bool
  get_final_images : String → Nat → List ImageRecord
  list_valid_cached_candidates : String → List Cand
  select_diverse : List Cand → Nat → List String
  promote : String → List String → List String
  download_and_select : String → String → Nat → List ImageRecord

/-- Directly observable side effects of one search_images call: whether it
    called delete_candidates_cache itself, and whether it fell through to the
    Phase-3 network path. -/
structure SearchEffects where
  candidates_cache_deleted : Bool
  phase3_invoked : Bool
deriving DecidableEq, Repr

/-- Python truthiness of an optional credential string: None and the empty
    string are falsy. -/
def credTruthy : Option String → Bool
  | none => false
  | some s => !s.isEmpty

/-- ImageSearchService.search_images: Phase 1 returns the cached final images;
    otherwise the credentials are checked, then Phase 2 tries to select and
    promote already-cached candidates and clears the candidate cache when
    promotion saved exactly count files; otherwise Phase 3 downloads. -/
def search_images (o : SearchOracle) (google_api_key google_cx : Option String)
    (keyword : String) (count : Nat) : List ImageRecord × SearchEffects :=
  let keyword_base := sanitize_keyword_for_filename keyword
  if o.check_all_images_cached keyword_base count then
    (o.get_final_images keyword_base count, ⟨false, false⟩)
  else if !(credTruthy google_api_key) || !(credTruthy google_cx) then
    ([], ⟨false, false⟩)
  else
    let existing_candidates := o.list_valid_cached_candidates keyword_base
    if count ≤ existing_candidates.length then
      let selected_paths := o.select_diverse existing_candidates count
      let saved_files := o.promote keyword_base selected_paths
      if saved_files.length = count then
        (o.get_final_images keyword_base count, ⟨true, false⟩)
      else
        (o.download_and_select keyword keyword_base count, ⟨false, true⟩)
    else
      (o.download_and_select keyword keyword_base count, ⟨false, true⟩)

/-- Collaborators of ImageSearchService._download_and_select_candidates: the
    outcome of the Google API block (an error value models a raised
    exception, caught by the catch-all of the method), the per-URL download
    (index and URL to a validated path-size pair, none on any failure), the
    candidate-cache listing taken after the downloads, the diversity
    selector, the promoter, and the final-record projection. -/
structure Phase3Oracle where
  fetch_urls : Except String (List String)
  download_candidate : Nat → String → Option Cand
  existing_candidates : List Cand
  select_diverse : List Cand → Nat → List String
  promote : List String → List String
  get_final_images : Nat → List ImageRecord

/-- Directly observable side effects of one _download_and_select_candidates
    call on the two cache tiers: whether promotion (the only writer of the
    final-images directory in this method) ran, and whether the candidate
    cache directory was deleted. -/
structure Phase3Effects where
  promote_invoked : Bool
  candidates_cache_deleted : Bool
deriving DecidableEq, Repr

/-- The download loop over enumerate(urls, start=1), keeping the validated
    candidates with their sizes. -/
def downloadedCandidates (o : Phase3Oracle) (urls : List String) : List Cand :=
  (List.enumFrom 1 urls).filterMap fun iu => o.download_candidate iu.1 iu.2

/-- ImageSearchService._download_and_select_candidates: fetch candidate URLs,
    download and validate them, merge with existing candidates, fail fast on
    an insufficient pool, select and promote, fail on an under-count
    promotion while keeping the candidate cache, and clear the candidate
    cache only after a full promotion. -/
def download_and_select_candidates (o : Phase3Oracle) (count : Nat) :
    List ImageRecord × Phase3Effects :=
  match o.fetch_urls with
  | Except.error _ => ([], ⟨false, false⟩)
  | Except.ok urls =>
    if urls.isEmpty then ([], ⟨false, false⟩)
    else
      let all_candidates := o.existing_candidates ++ downloadedCandidates o urls
      if all_candidates.length < count then ([], ⟨false, false⟩)
      else
        let selected_paths := o.select_diverse all_candidates count
        let saved_files := o.promote selected_paths
        if saved_files.length < count then ([], ⟨true, false⟩)
        else (o.get_final_images count, ⟨true, true⟩)

/- ------------------------------------------------------------------ -/
/- Theorems.                                                          -/
/- ------------------------------------------------------------------ -/

lemma allowed_not_ws (c : Char) (h : isAllowedChar c = true) :
    isPyWhitespace c = false := by
  simp only [isAllowedChar, Bool.or_eq_true, Bool.and_eq_true, decide_eq_true_eq] at h
  simp only [isPyWhitespace, Bool.or_eq_false_iff, decide_eq_false_iff_not]
  omega

lemma allowed_pyLower (c : Char) (h : isAllowedChar c = true) : pyLower c = c := by
  simp only [isAllowedChar, Bool.or_eq_true, Bool.and_eq_true, decide_eq_true_eq] at h
  unfold pyLower
  have : ¬ (65 ≤ c.toNat ∧ c.toNat ≤ 90) := by omega
  simp only [Bool.and_eq_true, decide_eq_true_eq]
  rw [if_neg this]

lemma allowed_not_space (c : Char) (h : isAllowedChar c = true) : ¬ (c = ' ') := by
  intro he
  subst he
  simp [isAllowedChar] at h

lemma dropWhile_eq_self_of_not (l : List Char) (p : Char → Bool)
    (h : ∀ c ∈ l, p c = false) : l.dropWhile p = l := by
  cases l with
  | nil => rfl
  | cons a as =>
    rw [List.dropWhile_cons, if_neg]
    simp [h a (by simp)]

lemma pyStrip_of_allowed (l : List Char) (h : ∀ c ∈ l, isAllowedChar c = true) :
    pyStrip l = l := by
  unfold pyStrip
  rw [dropWhile_eq_self_of_not l _ (fun c hc => allowed_not_ws c (h c hc))]
  rw [dropWhile_eq_self_of_not l.reverse _
    (fun c hc => allowed_not_ws c (h c (List.mem_reverse.mp hc)))]
  exact List.reverse_reverse l

lemma sanitizeChars_allowed (l : List Char) :
    ∀ c ∈ sanitizeChars l, isAllowedChar c = true := by
  intro c hc
  exact List.of_mem_filter hc

lemma sanitizeChars_of_allowed (l : List Char) (h : ∀ c ∈ l, isAllowedChar c = true) :
    sanitizeChars l = l := by
  unfold sanitizeChars
  rw [pyStrip_of_allowed l h]
  rw [List.map_congr_left (fun c hc => allowed_pyLower c (h c hc))]
  rw [List.map_id']
  rw [List.map_congr_left (fun c hc => if_neg (allowed_not_space c (h c hc)))]
  rw [List.map_id']
  exact List.filter_eq_self.mpr h

lemma sanitize_of_allowed (s : String) (h : ∀ c ∈ s.data, isAllowedChar c = true)
    (hne : s.data ≠ []) : sanitize_keyword_for_filename s = s := by
  unfold sanitize_keyword_for_filename
  rw [sanitizeChars_of_allowed s.data h]
  simp only [List.isEmpty_iff]
  rw [if_neg hne]

lemma sanitize_sanitize (s : String) :
    sanitize_keyword_for_filename (sanitize_keyword_for_filename s) =
      sanitize_keyword_for_filename s := by
  by_cases h : (sanitizeChars s.data).isEmpty
  · have h1 : sanitize_keyword_for_filename s = "image" := by
      unfold sanitize_keyword_for_filename
      simp [h]
    rw [h1]
    decide
  · have h1 : sanitize_keyword_for_filename s = String.mk (sanitizeChars s.data) := by
      unfold sanitize_keyword_for_filename
      simp [h]
    rw [h1]
    apply sanitize_of_allowed
    · exact sanitizeChars_allowed s.data
    · simpa [List.isEmpty_iff] using h

/-- Claim C9: keyword sanitization is idempotent and deterministic, with
    sanitize applied twice agreeing with one application for every string,
    and the two concrete examples of the spec. -/
theorem claim9_sanitize_idempotent (s t : String) :
    sanitize_keyword_for_filename (sanitize_keyword_for_filename s) =
      sanitize_keyword_for_filename s ∧
    (s = t → sanitize_keyword_for_filename s = sanitize_keyword_for_filename t) ∧
    sanitize_keyword_for_filename "Gaming Laptops!" = "gaming_laptops" ∧
    sanitize_keyword_for_filename "" = "image" := by
  refine ⟨sanitize_sanitize s, fun h => by rw [h], by decide, by decide⟩

/-- Claim C9 witness: the idempotence and determinism at a concrete string. -/
theorem claim9_witness :
    sanitize_keyword_for_filename (sanitize_keyword_for_filename "Ab c!") =
      sanitize_keyword_for_filename "Ab c!" ∧
    sanitize_keyword_for_filename "Ab c!" = sanitize_keyword_for_filename "Ab c!" :=
  ⟨(claim9_sanitize_idempotent "Ab c!" "Ab c!").1,
    (claim9_sanitize_idempotent "Ab c!" "Ab c!").2.1 rfl⟩

/-- Claim C8 counterexample: on the input "a TAB b" the code removes the tab
    (only real spaces become underscores), while the claim as stated maps
    every internal whitespace character to an underscore and so demands
    "a_b". -/
theorem claim8_counterexample :
    sanitize_keyword_for_filename "a\tb" = "ab" ∧
    sanitizeWhitespaceClaim "a\tb" = "a_b" ∧
    ("ab" : String) ≠ "a_b" := by
  refine ⟨by decide, by decide, by decide⟩

lemma chars_filter_eq_filterMap (l : List Char) :
    ((l.map pyLower).map (fun c => if c = ' ' then '_' else c)).filter isAllowedChar =
      l.filterMap sanitizeCharStep := by
  induction l with
  | nil => rfl
  | cons c cs ih =>
    simp only [List.map_cons, List.filter_cons, List.filterMap_cons]
    have hstep : sanitizeCharStep c =
        if isAllowedChar (if pyLower c = ' ' then '_' else pyLower c) then
          some (if pyLower c = ' ' then '_' else pyLower c)
        else none := rfl
    rw [hstep]
    cases h : isAllowedChar (if pyLower c = ' ' then '_' else pyLower c) with
    | false =>
      simp only [h, Bool.false_eq_true, if_false]
      simpa [List.map_map] using ih
    | true =>
      simp only [h, if_true]
      rw [List.map_map]
      simpa [List.map_map] using ih

/-- Claim C8 amended: sanitize_keyword_for_filename strips the ends, then per
    character lowercases, maps a space (and only the space character; other
    whitespace is removed, not replaced) to an underscore and keeps the
    result only when it lies in the class a-z 0-9 underscore hyphen, with an
    empty result mapped to "image"; it is total, never returns the empty
    string, and every character it returns lies in the allowed class. -/
theorem claim8_sanitizer_amended (s : String) :
    sanitize_keyword_for_filename s = sanitizeAmendedClaim s ∧
    sanitize_keyword_for_filename s ≠ "" ∧
    ∀ c ∈ (sanitize_keyword_for_filename s).data, isAllowedChar c = true := by
  have heq : sanitize_keyword_for_filename s = sanitizeAmendedClaim s := by
    unfold sanitize_keyword_for_filename sanitizeAmendedClaim sanitizeChars
    rw [chars_filter_eq_filterMap]
  refine ⟨heq, ?_, ?_⟩
  · by_cases h : (sanitizeChars s.data).isEmpty
    · unfold sanitize_keyword_for_filename
      simp [h]
    · unfold sanitize_keyword_for_filename
      simp only [h, Bool.false_eq_true, if_false]
      intro hcon
      have : sanitizeChars s.data = [] := congrArg String.data hcon
      simp [List.isEmpty_iff.mpr this] at h
  · by_cases h : (sanitizeChars s.data).isEmpty
    · unfold sanitize_keyword_for_filename
      simp only [h, if_true]
      decide
    · unfold sanitize_keyword_for_filename
      simp only [h, Bool.false_eq_true, if_false]
      exact sanitizeChars_allowed s.data

/-- Claim C8 witness: the amended characterization at a concrete string. -/
theorem claim8_witness :
    sanitize_keyword_for_filename "Ab c!" = sanitizeAmendedClaim "Ab c!" ∧
    isAllowedChar 'a' = true :=
  ⟨(claim8_sanitizer_amended "Ab c!").1,
    (claim8_sanitizer_amended "Ab c!").2.2 'a' (by decide)⟩

/-- Claim C1: the backfill of select_diverse_images is dead code. On a pool of
    four hashed candidates with identical fingerprints and count 3 there is
    one similarity cluster, so the claim demands min(3, 4) = 3 paths
    backfilled by size; the code returns only the single largest path of the
    cluster, because the backfill slices the group list from position
    len(selected), which equals the number of groups exactly when the
    backfill branch runs. -/
theorem claim1_backfill_dead :
    select_diverse_images (fun _ => some [])
      [("pa", 400), ("pb", 300), ("pc", 200), ("pd", 100)] 3 10 = ["pa"] ∧
    (["pa"] : List String).length ≠ min 3 4 := by
  refine ⟨by decide, by decide⟩

/-- Claim C2: with a Phase-1 miss, three valid cached candidates, a selector
    and promoter that succeed for count 3, the Phase-2 reuse path returns the
    final images, clears the candidate cache and never reaches Phase 3 when
    credentials are configured; but with zero credentials the very same state
    yields an empty result before Phase 2 is even tried, because
    search_images checks the credentials directly after Phase 1. -/
theorem claim2_credentials_gate_before_phase2 :
    search_images
      ⟨fun _ _ => false,
       fun _ _ => [⟨"/image/kw_1.jpg", "/image/kw_1.jpg", "Image 1", "Cached"⟩],
       fun _ => [("c1", 10), ("c2", 20), ("c3", 30)],
       fun _ _ => ["c3", "c2", "c1"],
       fun _ sel => sel,
       fun _ _ _ => []⟩
      (some "key") (some "cx") "kw" 3 =
      ([⟨"/image/kw_1.jpg", "/image/kw_1.jpg", "Image 1", "Cached"⟩], ⟨true, false⟩) ∧
    search_images
      ⟨fun _ _ => false,
       fun _ _ => [⟨"/image/kw_1.jpg", "/image/kw_1.jpg", "Image 1", "Cached"⟩],
       fun _ => [("c1", 10), ("c2", 20), ("c3", 30)],
       fun _ _ => ["c3", "c2", "c1"],
       fun _ sel => sel,
       fun _ _ _ => []⟩
      none none "kw" 3 = ([], ⟨false, false⟩) := by
  refine ⟨by decide, by decide⟩

/-- Claim C3 counterexample: a pool of two candidates, count 1, where every
    hash computation fails. The claim demands the size-only ranking, that is
    the larger path pb; the code falls into the hashed-pool passthrough with
    an empty hashed pool and returns nothing. -/
theorem claim3_counterexample :
    select_diverse_images (fun _ => none) [("pa", 5), ("pb", 9)] 1 10 = [] ∧
    ([] : List String) ≠ ["pb"] := by
  refine ⟨by decide, by decide⟩

lemma stableInsert_perm (f : α → α → Bool) (a : α) (l : List α) :
    (stableInsert f a l).Perm (a :: l) := by
  induction l with
  | nil => exact List.Perm.refl _
  | cons b bs ih =>
    unfold stableInsert
    by_cases h : f a b
    · rw [if_pos h]
    · rw [if_neg h]
      exact (ih.cons b).trans (List.Perm.swap a b bs)

lemma stableSort_perm (f : α → α → Bool) (l : List α) : (stableSort f l).Perm l := by
  induction l with
  | nil => exact List.Perm.refl _
  | cons a as ih => exact (stableInsert_perm f a _).trans (ih.cons a)

lemma stableSort_mem (f : α → α → Bool) (l : List α) (x : α) :
    x ∈ stableSort f l ↔ x ∈ l := (stableSort_perm f l).mem_iff

lemma pickLargest_mem (g : List HCand) (h : g ≠ []) : pickLargest g ∈ g := by
  have hp := stableSort_perm bySizeDesc g
  cases hs : stableSort bySizeDesc g with
  | nil =>
    rw [hs] at hp
    exact absurd hp.symm.eq_nil h
  | cons x xs =>
    have hx : pickLargest g = x := by unfold pickLargest; rw [hs]; rfl
    rw [hx]
    exact hp.mem_iff.mp (by rw [hs]; exact List.mem_cons_self x xs)

lemma addToGroups_flatten_perm (thr : Nat) (c : HCand) (gs : List (List HCand)) :
    (addToGroups thr c gs).flatten.Perm (c :: gs.flatten) := by
  induction gs with
  | nil => simp [addToGroups]
  | cons g gs ih =>
    unfold addToGroups
    by_cases h : hashDist c.2.2 (repHash g) ≤ thr
    · rw [if_pos h]
      simp only [List.flatten_cons]
      calc ((g ++ [c]) ++ gs.flatten).Perm (([c] ++ g) ++ gs.flatten) :=
            List.perm_append_comm.append_right gs.flatten
        _ = c :: (g ++ gs.flatten) := by simp
    · rw [if_neg h]
      simp only [List.flatten_cons]
      exact (ih.append_left g).trans List.perm_middle

lemma foldl_addToGroups_flatten_perm (thr : Nat) : ∀ (l : List HCand)
    (gs : List (List HCand)),
    ((l.foldl (fun gs c => addToGroups thr c gs) gs).flatten).Perm (gs.flatten ++ l) := by
  intro l
  induction l with
  | nil => intro gs; simp
  | cons c cs ih =>
    intro gs
    simp only [List.foldl_cons]
    refine (ih (addToGroups thr c gs)).trans ?_
    refine ((addToGroups_flatten_perm thr c gs).append_right cs).trans ?_
    exact List.perm_middle.symm

lemma buildGroups_flatten_perm (thr : Nat) (l : List HCand) :
    (buildGroups thr l).flatten.Perm l := by
  simpa [buildGroups] using foldl_addToGroups_flatten_perm thr l []

lemma addToGroups_ne_nil (thr : Nat) (c : HCand) : ∀ (gs : List (List HCand)),
    (∀ g ∈ gs, g ≠ []) → ∀ g ∈ addToGroups thr c gs, g ≠ [] := by
  intro gs
  induction gs with
  | nil =>
    intro _ g hg
    simp only [addToGroups, List.mem_singleton] at hg
    subst hg
    simp
  | cons g0 gs ih =>
    intro h g hg
    unfold addToGroups at hg
    by_cases hd : hashDist c.2.2 (repHash g0) ≤ thr
    · rw [if_pos hd] at hg
      rcases List.mem_cons.mp hg with h1 | h1
      · subst h1; simp
      · exact h g (List.mem_cons_of_mem g0 h1)
    · rw [if_neg hd] at hg
      rcases List.mem_cons.mp hg with h1 | h1
      · rw [h1]; exact h g0 (List.mem_cons_self g0 gs)
      · exact ih (fun g' hg' => h g' (List.mem_cons_of_mem g0 hg')) g h1

lemma buildGroups_ne_nil (thr : Nat) (l : List HCand) :
    ∀ g ∈ buildGroups thr l, g ≠ [] := by
  suffices h : ∀ (l : List HCand) (gs : List (List HCand)), (∀ g ∈ gs, g ≠ []) →
      ∀ g ∈ l.foldl (fun gs c => addToGroups thr c gs) gs, g ≠ [] by
    exact h l [] (by simp)
  intro l
  induction l with
  | nil => intro gs hgs; simpa using hgs
  | cons c cs ih =>
    intro gs hgs
    simp only [List.foldl_cons]
    exact ih (addToGroups thr c gs) (addToGroups_ne_nil thr c gs hgs)

lemma picks_path_mem (gs : List (List HCand)) (hne : ∀ g ∈ gs, g ≠ []) :
    ∀ p ∈ gs.map fun g => (pickLargest g).1, p ∈ gs.flatten.map fun t => t.1 := by
  intro p hp
  rcases List.mem_map.mp hp with ⟨g, hg, rfl⟩
  exact List.mem_map.mpr
    ⟨pickLargest g, List.mem_flatten.mpr ⟨g, hg, pickLargest_mem g (hne g hg)⟩, rfl⟩

lemma picks_nodup (gs : List (List HCand)) (hne : ∀ g ∈ gs, g ≠ [])
    (hnd : (gs.flatten.map fun t => t.1).Nodup) :
    (gs.map fun g => (pickLargest g).1).Nodup := by
  induction gs with
  | nil => simp
  | cons g gs ih =>
    simp only [List.map_cons, List.nodup_cons]
    rw [List.flatten_cons, List.map_append] at hnd
    constructor
    · intro hmem
      have h1 : (pickLargest g).1 ∈ gs.flatten.map fun t => t.1 :=
        picks_path_mem gs (fun g' hg' => hne g' (List.mem_cons_of_mem g hg')) _ hmem
      have h2 : (pickLargest g).1 ∈ g.map fun t => t.1 :=
        List.mem_map.mpr ⟨pickLargest g, pickLargest_mem g (hne g (List.mem_cons_self g gs)), rfl⟩
      exact (List.disjoint_of_nodup_append hnd) h2 h1
    · exact ih (fun g' hg' => hne g' (List.mem_cons_of_mem g hg')) hnd.of_append_right

lemma hashed_paths_sublist (hashFn : String → Option PHash) (l : List Cand) :
    List.Sublist ((hashedCandidates hashFn l).map fun t => t.1) (l.map Prod.fst) := by
  induction l with
  | nil => simp [hashedCandidates]
  | cons c cs ih =>
    simp only [hashedCandidates, List.filterMap_cons, List.map_cons]
    cases h : hashFn c.1 with
    | none =>
      simp only [Option.map_none']
      exact List.Sublist.cons c.1 ih
    | some hh =>
      simp only [Option.map_some', List.map_cons]
      exact List.Sublist.cons₂ c.1 ih

lemma mem_hashed_paths (hashFn : String → Option PHash) (l : List Cand) (p : String) :
    p ∈ (hashedCandidates hashFn l).map (fun t => t.1) →
      ∃ c ∈ l, c.1 = p ∧ hashFn c.1 ≠ none := by
  intro hp
  rcases List.mem_map.mp hp with ⟨t, ht, rfl⟩
  rcases List.mem_filterMap.mp ht with ⟨c, hc, hmap⟩
  cases h : hashFn c.1 with
  | none => rw [h] at hmap; simp at hmap
  | some hh =>
    rw [h] at hmap
    simp only [Option.map_some', Option.some.injEq] at hmap
    refine ⟨c, hc, ?_, by rw [h]; simp⟩
    rw [← hmap]

lemma hashed_nil_of_all_none (hashFn : String → Option PHash) (l : List Cand)
    (h : ∀ c ∈ l, hashFn c.1 = none) : hashedCandidates hashFn l = [] := by
  induction l with
  | nil => rfl
  | cons c cs ih =>
    simp only [hashedCandidates, List.filterMap_cons]
    rw [h c (List.mem_cons_self c cs)]
    exact ih fun c' hc' => h c' (List.mem_cons_of_mem c hc')

lemma selectFromClusters_eq (thr count : Nat) (cwh : List HCand) :
    selectFromClusters thr count cwh =
      (((stableSort byGroupMaxDesc (buildGroups thr cwh)).take count).map
        fun g => (pickLargest g).1).take count := by
  simp only [selectFromClusters]
  set sorted := stableSort byGroupMaxDesc (buildGroups thr cwh) with hsorted
  set selected := (sorted.take count).map fun g => (pickLargest g).1 with hselected
  by_cases h : selected.length < count
  · rw [if_pos h]
    have hslen : sorted.length < count := by
      have : selected.length = min count sorted.length := by
        rw [hselected, List.length_map, List.length_take]
      omega
    have htake : sorted.take count = sorted := List.take_of_length_le (le_of_lt hslen)
    have hdrop : sorted.drop count = [] := List.drop_eq_nil_of_le (le_of_lt hslen)
    have hlen2 : selected.length = sorted.length := by
      rw [hselected, htake, List.length_map]
    have hmut : ((sorted.take count).map (stableSort bySizeDesc) ++
        sorted.drop count).drop selected.length = [] := by
      apply List.drop_eq_nil_of_le
      rw [htake, hdrop, List.append_nil, List.length_map, hlen2]
    rw [hmut]
    simp [stableSort]
  · rw [if_neg h]

/-- Paths returned by the clustering arm all come from the hashed pool. -/
lemma selectFromClusters_sub (thr count : Nat) (cwh : List HCand) :
    ∀ p ∈ selectFromClusters thr count cwh, p ∈ cwh.map fun t => t.1 := by
  intro p hp
  rw [selectFromClusters_eq] at hp
  have hp2 := List.take_subset count _ hp
  set sorted := stableSort byGroupMaxDesc (buildGroups thr cwh) with hsorted
  have hne : ∀ g ∈ sorted.take count, g ≠ [] := by
    intro g hg
    have hg2 : g ∈ buildGroups thr cwh :=
      (stableSort_mem byGroupMaxDesc _ g).mp (List.take_subset count sorted hg)
    exact buildGroups_ne_nil thr cwh g hg2
  have hp3 := picks_path_mem (sorted.take count) hne p hp2
  have hsub : List.Sublist ((sorted.take count).flatten.map fun t => t.1)
      (sorted.flatten.map fun t => t.1) := by
    refine List.Sublist.map _ ?_
    conv => rhs; rw [← List.take_append_drop count sorted]
    rw [List.flatten_append]
    exact List.sublist_append_left _ _
  have hp4 := hsub.subset hp3
  have hperm : (sorted.flatten.map fun t => t.1).Perm (cwh.map fun t => t.1) :=
    ((stableSort_perm byGroupMaxDesc (buildGroups thr cwh)).flatten.trans
      (buildGroups_flatten_perm thr cwh)).map fun t => t.1
  exact hperm.mem_iff.mp hp4

/-- The clustering arm returns pairwise distinct paths whenever the hashed
    pool paths are pairwise distinct. -/
lemma selectFromClusters_nodup (thr count : Nat) (cwh : List HCand)
    (hnd : (cwh.map fun t => t.1).Nodup) :
    (selectFromClusters thr count cwh).Nodup := by
  rw [selectFromClusters_eq]
  set sorted := stableSort byGroupMaxDesc (buildGroups thr cwh) with hsorted
  have hne : ∀ g ∈ sorted.take count, g ≠ [] := by
    intro g hg
    have hg2 : g ∈ buildGroups thr cwh :=
      (stableSort_mem byGroupMaxDesc _ g).mp (List.take_subset count sorted hg)
    exact buildGroups_ne_nil thr cwh g hg2
  have hperm : (sorted.flatten.map fun t => t.1).Perm (cwh.map fun t => t.1) :=
    ((stableSort_perm byGroupMaxDesc (buildGroups thr cwh)).flatten.trans
      (buildGroups_flatten_perm thr cwh)).map fun t => t.1
  have hnd2 : (sorted.flatten.map fun t => t.1).Nodup := hperm.nodup_iff.mpr hnd
  have hsub : List.Sublist ((sorted.take count).flatten.map fun t => t.1)
      (sorted.flatten.map fun t => t.1) := by
    refine List.Sublist.map _ ?_
    conv => rhs; rw [← List.take_append_drop count sorted]
    rw [List.flatten_append]
    exact List.sublist_append_left _ _
  have hnd3 := hnd2.sublist hsub
  exact (picks_nodup (sorted.take count) hne hnd3).sublist (List.take_sublist count _)

/-- On a pool strictly larger than count, every returned path belongs to the
    hashed pool. -/
lemma select_sub_hashed (hashFn : String → Option PHash) (candidates : List Cand)
    (count thr : Nat) (h1 : ¬ candidates.length ≤ count) :
    ∀ p ∈ select_diverse_images hashFn candidates count thr,
      p ∈ (hashedCandidates hashFn candidates).map fun t => t.1 := by
  intro p hp
  simp only [select_diverse_images] at hp
  rw [if_neg h1] at hp
  by_cases h2 : (hashedCandidates hashFn candidates).length ≤ count
  · rw [if_pos h2] at hp
    exact hp
  · rw [if_neg h2] at hp
    exact selectFromClusters_sub thr count _ p hp

/-- Claim C3 amended: on a pool strictly larger than count, candidates whose
    perceptual hash computation fails are excluded from similarity clustering
    (every returned path is a candidate path that hashed successfully), and
    when hashing fails for every candidate the selector returns the empty
    hashed pool as-is, that is the empty list, rather than a size-only
    ranking. -/
theorem claim3_hash_failures_amended (hashFn : String → Option PHash)
    (candidates : List Cand) (count thr : Nat)
    (hlong : count < candidates.length) :
    (∀ p ∈ select_diverse_images hashFn candidates count thr,
        ∃ c ∈ candidates, c.1 = p ∧ hashFn c.1 ≠ none) ∧
    ((∀ c ∈ candidates, hashFn c.1 = none) →
        select_diverse_images hashFn candidates count thr = []) := by
  have h1 : ¬ candidates.length ≤ count := by omega
  constructor
  · intro p hp
    exact mem_hashed_paths hashFn candidates p
      (select_sub_hashed hashFn candidates count thr h1 p hp)
  · intro hall
    have hnil := hashed_nil_of_all_none hashFn candidates hall
    have h2 : (hashedCandidates hashFn candidates).length ≤ count := by
      rw [hnil]; simp
    simp only [select_diverse_images]
    rw [if_neg h1, if_pos h2, hnil]
    rfl

/-- Claim C3 witness: the amended claim at concrete inputs, with one
    hash-failing candidate excluded from a two-candidate pool, and an
    all-failing pool mapped to the empty result. -/
theorem claim3_witness :
    (∃ c ∈ [("a", 1), ("b", 2)], c.1 = "b" ∧
      (fun p => if p = "a" then none else some ([] : PHash)) c.1 ≠ none) ∧
    select_diverse_images (fun _ => none) [("pc", 5), ("pd", 9)] 1 10 = [] :=
  ⟨(claim3_hash_failures_amended (fun p => if p = "a" then none else some ([] : PHash))
      [("a", 1), ("b", 2)] 1 10 (by decide)).1 "b" (by decide),
    (claim3_hash_failures_amended (fun _ => none) [("pc", 5), ("pd", 9)] 1 10
      (by decide)).2 (fun c hc => rfl)⟩

/-- Claim C10: for pairwise-distinct candidate paths, select_diverse_images
    returns at most count paths, pairwise distinct, each drawn from the input
    pool, on every branch (small-pool passthrough, hashed-pool passthrough,
    cluster selection and backfill). -/
theorem claim10_select_sound (hashFn : String → Option PHash) (candidates : List Cand)
    (count thr : Nat) (hnd : (candidates.map Prod.fst).Nodup) :
    (select_diverse_images hashFn candidates count thr).length ≤ count ∧
    (select_diverse_images hashFn candidates count thr).Nodup ∧
    ∀ p ∈ select_diverse_images hashFn candidates count thr,
      p ∈ candidates.map Prod.fst := by
  by_cases h1 : candidates.length ≤ count
  · have he : select_diverse_images hashFn candidates count thr =
        candidates.map Prod.fst := by
      simp only [select_diverse_images]
      rw [if_pos h1]
    rw [he]
    exact ⟨by simpa using h1, hnd, fun p hp => hp⟩
  · have hndh : ((hashedCandidates hashFn candidates).map fun t => t.1).Nodup :=
      hnd.sublist (hashed_paths_sublist hashFn candidates)
    by_cases h2 : (hashedCandidates hashFn candidates).length ≤ count
    · have he : select_diverse_images hashFn candidates count thr =
          (hashedCandidates hashFn candidates).map fun t => t.1 := by
        simp only [select_diverse_images]
        rw [if_neg h1, if_pos h2]
      rw [he]
      exact ⟨by simpa using h2, hndh,
        fun p hp => (hashed_paths_sublist hashFn candidates).subset hp⟩
    · have he : select_diverse_images hashFn candidates count thr =
          selectFromClusters thr count (hashedCandidates hashFn candidates) := by
        simp only [select_diverse_images]
        rw [if_neg h1, if_neg h2]
      rw [he]
      refine ⟨?_, selectFromClusters_nodup thr count _ hndh, ?_⟩
      · rw [selectFromClusters_eq]
        exact List.length_take_le count _
      · intro p hp
        exact (hashed_paths_sublist hashFn candidates).subset
          (selectFromClusters_sub thr count _ p hp)

/-- Claim C10 witness: the soundness conjunction at a concrete pool that
    exercises the clustering arm. -/
theorem claim10_witness :
    (select_diverse_images (fun _ => some []) [("a", 3), ("b", 5), ("c", 1)] 2 10).length ≤ 2 ∧
    (select_diverse_images (fun _ => some []) [("a", 3), ("b", 5), ("c", 1)] 2 10).Nodup ∧
    ∀ p ∈ select_diverse_images (fun _ => some []) [("a", 3), ("b", 5), ("c", 1)] 2 10,
      p ∈ ([("a", 3), ("b", 5), ("c", 1)] : List Cand).map Prod.fst :=
  claim10_select_sound (fun _ => some []) [("a", 3), ("b", 5), ("c", 1)] 2 10 (by decide)

lemma hiFitGo_eq_some (f : Int → Nat) (target : Nat) :
    ∀ (n : Nat) (q m : Int), m ≤ q → q - m < (n : Int) → f m ≤ target →
      (∀ x : Int, m < x → x ≤ q → target < f x) → hiFitGo f target n q = some m := by
  intro n
  induction n with
  | zero =>
    intro q m h1 h2 _ _
    omega
  | succ n ih =>
    intro q m h1 h2 h3 h4
    unfold hiFitGo
    by_cases hq : f q ≤ target
    · rw [if_pos hq]
      have hqm : q = m := by
        by_contra hne
        have hlt : m < q := lt_of_le_of_ne h1 fun he => hne he.symm
        exact absurd hq (not_le.mpr (h4 q hlt le_rfl))
      rw [hqm]
    · rw [if_neg hq]
      have hmq : m < q := by
        rcases eq_or_lt_of_le h1 with he | hl
        · exact absurd (he ▸ h3) hq
        · exact hl
      refine ih (q - 1) m (by omega) (by omega) h3 ?_
      intro x hx1 hx2
      exact h4 x hx1 (by omega)

lemma hiFitGo_eq_none (f : Int → Nat) (target : Nat) :
    ∀ (n : Nat) (q : Int),
      (∀ x : Int, q - (n : Int) < x → x ≤ q → target < f x) →
      hiFitGo f target n q = none := by
  intro n
  induction n with
  | zero => intro q _; rfl
  | succ n ih =>
    intro q h
    unfold hiFitGo
    rw [if_neg (not_le.mpr (h q (by omega) le_rfl))]
    refine ih (q - 1) ?_
    intro x hx1 hx2
    exact h x (by omega) (by omega)

/-- At loop exit (empty window) the JPEG best_result is exactly the highest
    fitting quality of the whole range, paired with its size. -/
lemma searchBestFinal (f : Int → Nat) (target : Nat) (low high : Int)
    (best : Option (Int × Nat)) (hterm : high < low) (hlh : low ≤ high + 1)
    (hhigh : high ≤ 95)
    (hupper : ∀ q : Int, high < q → q ≤ 95 → target < f q)
    (hbest : (low = 30 ∧ best = none) ∨
      (30 < low ∧ f (low - 1) ≤ target ∧ best = some (low - 1, f (low - 1)))) :
    best = (highestFittingJpeg f target).map fun q => (q, f q) := by
  rcases hbest with ⟨hl, hb⟩ | ⟨hl, hfit, hb⟩
  · rw [hb]
    have hnone : highestFittingJpeg f target = none := by
      refine hiFitGo_eq_none f target 66 95 ?_
      intro x hx1 hx2
      exact hupper x (by omega) hx2
    rw [hnone]
    rfl
  · rw [hb]
    have hsome : highestFittingJpeg f target = some (low - 1) := by
      refine hiFitGo_eq_some f target 66 95 (low - 1) (by omega) (by omega) hfit ?_
      intro x hx1 hx2
      exact hupper x (by omega) hx2
    rw [hsome]
    rfl

/-- Binary-search correctness: with a total, monotone JPEG encoder, the loop
    invariants pin the final best_result to the highest fitting quality. -/
lemma jpegSearchGo_correct (o : EncodeOracle) (f : Int → Nat) (target : Nat)
    (hj : ∀ q, o.jpegSize q = some (f q))
    (hmono : ∀ a b : Int, a ≤ b → f a ≤ f b) :
    ∀ (fuel : Nat) (low high : Int) (best : Option (Int × Nat)),
      (high + 1 - low).toNat ≤ fuel →
      30 ≤ low → low ≤ high + 1 → high ≤ 95 →
      (∀ q : Int, high < q → q ≤ 95 → target < f q) →
      ((low = 30 ∧ best = none) ∨
        (30 < low ∧ f (low - 1) ≤ target ∧ best = some (low - 1, f (low - 1)))) →
      (jpegSearchGo o target fuel low high best).1 =
        (highestFittingJpeg f target).map fun q => (q, f q) := by
  intro fuel
  induction fuel with
  | zero =>
    intro low high best hfuel hlow hlh hhigh hupper hbest
    exact searchBestFinal f target low high best (by omega) hlh hhigh hupper hbest
  | succ fuel ih =>
    intro low high best hfuel hlow hlh hhigh hupper hbest
    unfold jpegSearchGo
    by_cases hcond : low ≤ high
    · rw [if_pos hcond]
      dsimp only
      rw [hj ((low + high) / 2)]
      dsimp only
      by_cases hfit : f ((low + high) / 2) ≤ target
      · rw [if_pos hfit]
        dsimp only
        refine ih ((low + high) / 2 + 1) high (some ((low + high) / 2, f ((low + high) / 2)))
          (by omega) (by omega) (by omega) hhigh hupper ?_
        refine Or.inr ⟨by omega, ?_, ?_⟩
        · have : (low + high) / 2 + 1 - 1 = (low + high) / 2 := by omega
          rw [this]
          exact hfit
        · have : (low + high) / 2 + 1 - 1 = (low + high) / 2 := by omega
          rw [this]
      · rw [if_neg hfit]
        dsimp only
        refine ih low ((low + high) / 2 - 1) best (by omega) hlow (by omega) (by omega) ?_ hbest
        intro q hq1 hq2
        by_cases hq3 : high < q
        · exact hupper q hq3 hq2
        · have hge : (low + high) / 2 ≤ q := by omega
          exact lt_of_lt_of_le (not_le.mp hfit) (hmono _ q hge)
    · rw [if_neg hcond]
      exact searchBestFinal f target low high best (by omega) hlh hhigh hupper hbest

/-- The full binary search over [30, 95] computes the highest fitting JPEG
    quality. -/
lemma jpegSearch_correct (o : EncodeOracle) (f : Int → Nat) (target : Nat)
    (hj : ∀ q, o.jpegSize q = some (f q))
    (hmono : ∀ a b : Int, a ≤ b → f a ≤ f b) :
    (jpegSearch o target 30 95 none).1 =
      (highestFittingJpeg f target).map fun q => (q, f q) := by
  unfold jpegSearch
  refine jpegSearchGo_correct o f target hj hmono _ 30 95 none le_rfl (by norm_num)
    (by norm_num) (by norm_num) ?_ (Or.inl ⟨rfl, rfl⟩)
  intro q hq1 hq2
  omega

/-- With a total WebP encoder the scan is the first quality accepted by the
    adoption test, otherwise the incoming best result. -/
lemma webpScan_find (o : EncodeOracle) (w : Int → Nat) (target : Nat)
    (hw : ∀ q, o.webpSize q = some (w q)) :
    ∀ (qs : List Int) (best : BestResult),
      webpScan o target qs best =
        match qs.find? (fun q => w q ≤ target && ltOptSize (w q) (bestSize best)) with
        | some q => some ((Codec.webp, q), ".webp", w q)
        | none => best := by
  intro qs
  induction qs with
  | nil => intro best; rfl
  | cons q qs ih =>
    intro best
    unfold webpScan
    rw [hw q]
    dsimp only
    rw [List.find?_cons]
    cases hc : (decide (w q ≤ target) && ltOptSize (w q) (bestSize best)) with
    | true => simp
    | false => simp [ih]

/-- Claim C5: with total encoders and a JPEG size monotone in quality,
    compress_image_to_target returns exactly what the spec describes: the
    JPEG at the highest quality in [30, 95] that fits the target, replaced by
    the first WebP among qualities 80, 70, 60, 50 that fits the target and is
    strictly smaller than the best JPEG, and the quality-75 JPEG fallback
    when no trial met the target; in particular it always returns some
    (bytes, extension) pair. -/
theorem claim5_compress_matches_spec (f w : Int → Nat) (o : EncodeOracle) (target : Nat)
    (hj : ∀ q, o.jpegSize q = some (f q)) (hw : ∀ q, o.webpSize q = some (w q))
    (hmono : ∀ a b : Int, a ≤ b → f a ≤ f b) :
    compress_image_to_target o target = compressClaimModel f w target := by
  unfold compress_image_to_target compressClaimModel
  rw [jpegSearch_correct o f target hj hmono]
  dsimp only
  rw [webpScan_find o w target hw]
  unfold firstAdoptedWebp webpQualities
  cases hfit : highestFittingJpeg f target with
  | none =>
    dsimp only [Option.map_none', bestSize]
    cases hfind : List.find? (fun q => w q ≤ target && ltOptSize (w q) none)
        [80, 70, 60, 50] with
    | none => rfl
    | some q => rfl
  | some m =>
    dsimp only [Option.map_some', bestSize]
    cases hfind : List.find? (fun q => w q ≤ target && ltOptSize (w q) (some (f m)))
        [80, 70, 60, 50] with
    | none => rfl
    | some q => rfl

/-- Claim C5 witness: the refinement applied to a constant size-5 JPEG
    encoder (monotone) and constant size-9 WebP encoder, at target 6. -/
theorem claim5_witness :
    compress_image_to_target ⟨fun _ => some 5, fun _ => some 9⟩ 6 =
      ((Codec.jpegProgressive, 95), ".jpg") :=
  (claim5_compress_matches_spec (fun _ => 5) (fun _ => 9)
    ⟨fun _ => some 5, fun _ => some 9⟩ 6 (fun _ => rfl) (fun _ => rfl)
    (fun _ _ _ => le_refl 5)).trans (by decide)

lemma jpegSearchGo_attempts (o : EncodeOracle) (target : Nat) :
    ∀ (k fuel : Nat) (low high : Int) (best : Option (Int × Nat)),
      (high + 1 - low).toNat < 2 ^ k →
      (jpegSearchGo o target fuel low high best).2 ≤ k := by
  intro k
  induction k with
  | zero =>
    intro fuel low high best h
    cases fuel with
    | zero => simp [jpegSearchGo]
    | succ fuel =>
      unfold jpegSearchGo
      rw [if_neg (by simp at h; omega : ¬ low ≤ high)]
  | succ k ih =>
    intro fuel low high best h
    cases fuel with
    | zero => simp [jpegSearchGo]
    | succ fuel =>
      unfold jpegSearchGo
      by_cases hcond : low ≤ high
      · rw [if_pos hcond]
        dsimp only
        have hKpos : 0 < 2 ^ k := Nat.pow_pos (by norm_num)
        have hlt : (high + 1 - low).toNat < 2 * 2 ^ k := by
          have h2 : (2 : Nat) ^ (k + 1) = 2 * 2 ^ k := by rw [pow_succ]; ring
          omega
        cases hjs : o.jpegSize ((low + high) / 2) with
        | none =>
          dsimp only
          omega
        | some size =>
          dsimp only
          by_cases hfitc : size ≤ target
          · rw [if_pos hfitc]
            dsimp only
            have hrec := ih fuel ((low + high) / 2 + 1) high
              (some ((low + high) / 2, size)) (by omega)
            omega
          · rw [if_neg hfitc]
            dsimp only
            have hrec := ih fuel low ((low + high) / 2 - 1) best (by omega)
            omega
      · rw [if_neg hcond]
        simp

/-- Claim C6: the JPEG binary-search loop terminates for every input, exiting
    as soon as the window is empty (low exceeds high), and starting from the
    window [30, 95] it performs at most 7 encode attempts. -/
theorem claim6_binary_search_bounded (o : EncodeOracle) (target : Nat) :
    (∀ (low high : Int) (best : Option (Int × Nat)), high < low →
      jpegSearch o target low high best = (best, 0)) ∧
    (jpegSearch o target 30 95 none).2 ≤ 7 := by
  constructor
  · intro low high best h
    unfold jpegSearch
    have hz : (high + 1 - low).toNat = 0 := by omega
    rw [hz]
    rfl
  · unfold jpegSearch
    exact jpegSearchGo_attempts o target 7 _ 30 95 none (by norm_num)

/-- Claim C6 witness: immediate exit on an empty window and the 7-attempt
    bound, at a concrete oracle. -/
theorem claim6_witness :
    jpegSearch ⟨fun _ => some 0, fun _ => some 0⟩ 10 50 20 none = (none, 0) ∧
    (jpegSearch ⟨fun _ => some 0, fun _ => some 0⟩ 10 30 95 none).2 ≤ 7 :=
  ⟨(claim6_binary_search_bounded ⟨fun _ => some 0, fun _ => some 0⟩ 10).1 50 20 none
      (by decide),
    (claim6_binary_search_bounded ⟨fun _ => some 0, fun _ => some 0⟩ 10).2⟩

lemma string_append_left_cancel (a b c : String) (h : a ++ b = a ++ c) : b = c := by
  have h2 : a.data ++ b.data = a.data ++ c.data := by
    have := congrArg String.data h
    simpa [String.data_append] using this
  have h3 : b.data = c.data := List.append_cancel_left h2
  cases b
  cases c
  exact congrArg String.mk h3

lemma jw_sub : ∀ x ∈ ([".jpg", ".webp"] : List String), x ∈ SUPPORTED_EXTENSIONS := by
  decide

lemma fsWrite_self (fs : FS) (p : String) : fsWrite fs p p = true := by
  unfold fsWrite
  simp

lemma fsWrite_apply_ne (fs : FS) (p q : String) (h : q ≠ p) : fsWrite fs p q = fs q := by
  unfold fsWrite
  simp [h]

lemma fsRemoveTry_apply_ne (o : PromoteOracle) (fs : FS) (p q : String) (h : q ≠ p) :
    fsRemoveTry o fs p q = fs q := by
  unfold fsRemoveTry
  by_cases hc : (fs p && o.removeOk p) = true
  · rw [if_pos hc]
    simp [h]
  · rw [if_neg hc]

lemma fsRemoveTry_false (o : PromoteOracle) (fs : FS) (p q : String) (h : fs q = false) :
    fsRemoveTry o fs p q = false := by
  unfold fsRemoveTry
  by_cases hc : (fs p && o.removeOk p) = true
  · rw [if_pos hc]
    by_cases hq : q = p
    · simp [hq]
    · simp [hq, h]
  · rw [if_neg hc]
    exact h

lemma fsRemoveTry_self (o : PromoteOracle) (fs : FS) (p : String)
    (hrm : o.removeOk p = true) : fsRemoveTry o fs p p = false := by
  unfold fsRemoveTry
  cases hf : fs p with
  | false =>
    rw [if_neg (by simp [hf])]
    exact hf
  | true =>
    rw [if_pos (by simp [hf, hrm])]
    simp

lemma removeFold_apply_ne (o : PromoteOracle) (base : String) (L : List String) :
    ∀ (fs : FS) (q : String), (∀ e ∈ L, q ≠ base ++ e) →
      (L.foldl (fun f e => fsRemoveTry o f (base ++ e)) fs) q = fs q := by
  induction L with
  | nil => intro fs q _; rfl
  | cons e L ih =>
    intro fs q h
    simp only [List.foldl_cons]
    rw [ih _ q fun e' he' => h e' (List.mem_cons_of_mem e he')]
    exact fsRemoveTry_apply_ne o fs (base ++ e) q (h e (List.mem_cons_self e L))

lemma removeFold_false (o : PromoteOracle) (base : String) (L : List String) :
    ∀ (fs : FS) (q : String), fs q = false →
      (L.foldl (fun f e => fsRemoveTry o f (base ++ e)) fs) q = false := by
  induction L with
  | nil => intro fs q h; exact h
  | cons e L ih =>
    intro fs q h
    simp only [List.foldl_cons]
    exact ih _ q (fsRemoveTry_false o fs (base ++ e) q h)

lemma removeFold_mem (o : PromoteOracle) (base : String) (L : List String)
    (hrm : ∀ p, o.removeOk p = true) :
    ∀ (fs : FS) (e : String), e ∈ L →
      (L.foldl (fun f e => fsRemoveTry o f (base ++ e)) fs) (base ++ e) = false := by
  induction L with
  | nil => intro fs e he; simp at he
  | cons e0 L ih =>
    intro fs e he
    simp only [List.foldl_cons]
    rcases List.mem_cons.mp he with he1 | he1
    · rw [he1]
      exact removeFold_false o base L _ _ (fsRemoveTry_self o fs (base ++ e0) (hrm _))
    · exact ih _ e he1

lemma processSlot_fst (o : PromoteOracle) (kb : String) (idx : Nat) (src : String)
    (fs : FS) (saved : List String) (ho : o.openOk src = true) :
    (processSlot o kb idx src fs saved).1 =
      fsWrite
        (SUPPORTED_EXTENSIONS.foldl
          (fun f e => fsRemoveTry o f (slotBasePath kb idx ++ e)) fs)
        (slotBasePath kb idx ++ o.chosenExt src) := by
  unfold processSlot
  rw [if_pos ho]
  dsimp only
  by_cases hv : o.writtenValid (slotBasePath kb idx ++ o.chosenExt src) = true
  · rw [if_pos hv]
  · rw [if_neg hv]

lemma processSlot_fst_closed (o : PromoteOracle) (kb : String) (idx : Nat) (src : String)
    (fs : FS) (saved : List String) (ho : ¬ o.openOk src = true) :
    (processSlot o kb idx src fs saved).1 = fs := by
  unfold processSlot
  rw [if_neg ho]

lemma processSlot_untouched (o : PromoteOracle) (kb : String) (idx : Nat) (src : String)
    (fs : FS) (saved : List String) (q : String)
    (hext : ∀ p, o.chosenExt p ∈ [".jpg", ".webp"])
    (hq : ∀ e ∈ SUPPORTED_EXTENSIONS, q ≠ slotBasePath kb idx ++ e) :
    (processSlot o kb idx src fs saved).1 q = fs q := by
  by_cases ho : o.openOk src = true
  · rw [processSlot_fst o kb idx src fs saved ho]
    rw [fsWrite_apply_ne _ _ _ (hq (o.chosenExt src) (jw_sub _ (hext src)))]
    exact removeFold_apply_ne o (slotBasePath kb idx) SUPPORTED_EXTENSIONS fs q hq
  · rw [processSlot_fst_closed o kb idx src fs saved ho]

lemma processSlot_slot_written (o : PromoteOracle) (kb : String) (idx : Nat) (src : String)
    (fs : FS) (saved : List String) (ho : o.openOk src = true) :
    (processSlot o kb idx src fs saved).1 (slotBasePath kb idx ++ o.chosenExt src) = true := by
  rw [processSlot_fst o kb idx src fs saved ho]
  exact fsWrite_self _ _

lemma processSlot_slot_removed (o : PromoteOracle) (kb : String) (idx : Nat) (src : String)
    (fs : FS) (saved : List String) (hrm : ∀ p, o.removeOk p = true)
    (ho : o.openOk src = true) (e : String) (he : e ∈ SUPPORTED_EXTENSIONS)
    (hne : e ≠ o.chosenExt src) :
    (processSlot o kb idx src fs saved).1 (slotBasePath kb idx ++ e) = false := by
  rw [processSlot_fst o kb idx src fs saved ho]
  rw [fsWrite_apply_ne _ _ _
    fun hcontra => hne (string_append_left_cancel _ _ _ hcontra)]
  exact removeFold_mem o (slotBasePath kb idx) SUPPORTED_EXTENSIONS hrm fs e he

lemma promoteAux_untouched (o : PromoteOracle) (kb : String)
    (hext : ∀ p, o.chosenExt p ∈ [".jpg", ".webp"]) :
    ∀ (rest : List String) (idx : Nat) (fs : FS) (saved : List String) (q : String),
      (∀ j, j < rest.length → ∀ e ∈ SUPPORTED_EXTENSIONS,
        q ≠ slotBasePath kb (idx + j) ++ e) →
      (promoteAux o kb idx rest fs saved).1 q = fs q := by
  intro rest
  induction rest with
  | nil => intro idx fs saved q _; rfl
  | cons src rest ih =>
    intro idx fs saved q h
    simp only [promoteAux]
    rw [ih (idx + 1) _ _ q ?later]
    case later =>
      intro j hj e he
      have harith : idx + 1 + j = idx + (j + 1) := by omega
      rw [harith]
      exact h (j + 1) (by simpa using Nat.succ_lt_succ hj) e he
    refine processSlot_untouched o kb idx src fs saved q hext ?_
    intro e he
    have := h 0 (by simp) e he
    simpa using this

lemma promoteAux_slot_spec (o : PromoteOracle) (kb : String)
    (hrm : ∀ p, o.removeOk p = true)
    (hext : ∀ p, o.chosenExt p ∈ [".jpg", ".webp"]) :
    ∀ (rest : List String) (idx : Nat) (fs : FS) (saved : List String)
      (i : Nat) (hi : i < rest.length),
      o.openOk (rest.get ⟨i, hi⟩) = true →
      (∀ j, j < rest.length → i ≠ j → ∀ e ∈ SUPPORTED_EXTENSIONS,
        ∀ e' ∈ SUPPORTED_EXTENSIONS,
        slotBasePath kb (idx + i) ++ e ≠ slotBasePath kb (idx + j) ++ e') →
      ((promoteAux o kb idx rest fs saved).1
          (slotBasePath kb (idx + i) ++ o.chosenExt (rest.get ⟨i, hi⟩)) = true ∧
        ∀ e ∈ SUPPORTED_EXTENSIONS, e ≠ o.chosenExt (rest.get ⟨i, hi⟩) →
          (promoteAux o kb idx rest fs saved).1 (slotBasePath kb (idx + i) ++ e) = false) := by
  intro rest
  induction rest with
  | nil => intro idx fs saved i hi; simp at hi
  | cons src rest ih =>
    intro idx fs saved i hi hopen hsep
    cases i with
    | zero =>
      simp only [promoteAux]
      have hsrc : (src :: rest).get ⟨0, hi⟩ = src := rfl
      rw [hsrc] at hopen ⊢
      constructor
      · rw [promoteAux_untouched o kb hext rest (idx + 1) _ _ _ ?sep1]
        case sep1 =>
          intro j hj e he
          have harith : idx + 1 + j = idx + (j + 1) := by omega
          rw [harith]
          exact hsep (j + 1) (by simpa using Nat.succ_lt_succ hj) (by omega)
            (o.chosenExt src) (jw_sub _ (hext src)) e he
        have := processSlot_slot_written o kb idx src fs saved hopen
        simpa using this
      · intro e he hne
        rw [promoteAux_untouched o kb hext rest (idx + 1) _ _ _ ?sep2]
        case sep2 =>
          intro j hj e' he'
          have harith : idx + 1 + j = idx + (j + 1) := by omega
          rw [harith]
          exact hsep (j + 1) (by simpa using Nat.succ_lt_succ hj) (by omega) e he e' he'
        have := processSlot_slot_removed o kb idx src fs saved hrm hopen e he hne
        simpa using this
    | succ i2 =>
      simp only [promoteAux]
      have hi2 : i2 < rest.length := by simpa using Nat.lt_of_succ_lt_succ hi
      have hget : (src :: rest).get ⟨i2 + 1, hi⟩ = rest.get ⟨i2, hi2⟩ := rfl
      rw [hget] at hopen ⊢
      have harith : idx + (i2 + 1) = idx + 1 + i2 := by omega
      rw [harith]
      refine ih (idx + 1) _ _ i2 hi2 hopen ?_
      intro j hj hne e he e' he'
      have h1 : idx + 1 + i2 = idx + (i2 + 1) := by omega
      have h2 : idx + 1 + j = idx + (j + 1) := by omega
      rw [h1, h2]
      exact hsep (j + 1) (by simpa using Nat.succ_lt_succ hj) (by omega) e he e' he'

/-- Claim C7: promotion enforces at most one file per (keyword_base, slot).
    For every slot whose candidate processes successfully, and with removals
    succeeding and distinct slots occupying distinct paths, the final state
    holds the newly written file at the slot base path with the chosen
    extension and no file at the same base path with any other supported
    extension, even when the stale extension differs from the new one. -/
theorem claim7_extension_overwrite (o : PromoteOracle) (kb : String)
    (selected : List String) (fs : FS)
    (hrm : ∀ p, o.removeOk p = true)
    (hext : ∀ p, o.chosenExt p ∈ [".jpg", ".webp"])
    (hsep : ∀ i, i < selected.length → ∀ j, j < selected.length → i ≠ j →
      ∀ e ∈ SUPPORTED_EXTENSIONS, ∀ e' ∈ SUPPORTED_EXTENSIONS,
        slotBasePath kb (1 + i) ++ e ≠ slotBasePath kb (1 + j) ++ e')
    (i : Nat) (hi : i < selected.length)
    (hopen : o.openOk (selected.get ⟨i, hi⟩) = true) :
    ((promote_candidates_to_outputs o kb selected fs).2
        (slotBasePath kb (1 + i) ++ o.chosenExt (selected.get ⟨i, hi⟩)) = true) ∧
    (∀ e ∈ SUPPORTED_EXTENSIONS, e ≠ o.chosenExt (selected.get ⟨i, hi⟩) →
      (promote_candidates_to_outputs o kb selected fs).2
        (slotBasePath kb (1 + i) ++ e) = false) := by
  unfold promote_candidates_to_outputs
  dsimp only
  exact promoteAux_slot_spec o kb hrm hext selected 1 fs [] i hi hopen
    (fun j hj hne e he e' he' => hsep i hi j hj hne e he e' he')

/-- Claim C7 witness: a concrete promotion over two slots, where a stale
    k_1.png exists, the new compression chooses .jpg, and afterwards the slot
    holds exactly the new .jpg with the stale .png removed. -/
theorem claim7_witness :
    ((promote_candidates_to_outputs ⟨fun _ => true, fun _ => ".jpg", fun _ => true,
        fun _ => true⟩ "k" ["s1", "s2"] (fun p => p == "images/k_1.png")).2
      (slotBasePath "k" (1 + 0) ++ ".jpg") = true) ∧
    ((promote_candidates_to_outputs ⟨fun _ => true, fun _ => ".jpg", fun _ => true,
        fun _ => true⟩ "k" ["s1", "s2"] (fun p => p == "images/k_1.png")).2
      (slotBasePath "k" (1 + 0) ++ ".png") = false) := by
  have h := claim7_extension_overwrite
    ⟨fun _ => true, fun _ => ".jpg", fun _ => true, fun _ => true⟩ "k" ["s1", "s2"]
    (fun p => p == "images/k_1.png") (fun _ => rfl) (fun _ => List.mem_cons_self _ _)
    (by decide) 0 (by decide) rfl
  exact ⟨h.1, h.2 ".png" (by decide) (by decide)⟩

/-- Claim C4: every failure path of _download_and_select_candidates returns
    an empty list rather than raising (a raised exception inside the API
    block, modelled as the error case, is caught and becomes an empty list
    with no side effects); an insufficient merged pool returns empty before
    promotion ever runs, leaving the final-images directory unchanged; an
    under-count promotion returns empty without deleting the candidate cache
    directory, preserving candidates for a future retry. -/
theorem claim4_phase3_failure_paths (o : Phase3Oracle) (count : Nat) :
    (∀ e, o.fetch_urls = Except.error e →
      download_and_select_candidates o count = ([], ⟨false, false⟩)) ∧
    (∀ urls, o.fetch_urls = Except.ok urls → urls.isEmpty = false →
      (o.existing_candidates ++ downloadedCandidates o urls).length < count →
      download_and_select_candidates o count = ([], ⟨false, false⟩)) ∧
    (∀ urls, o.fetch_urls = Except.ok urls → urls.isEmpty = false →
      ¬ (o.existing_candidates ++ downloadedCandidates o urls).length < count →
      (o.promote (o.select_diverse (o.existing_candidates ++ downloadedCandidates o urls)
        count)).length < count →
      download_and_select_candidates o count = ([], ⟨true, false⟩)) := by
  refine ⟨?_, ?_, ?_⟩
  · intro e he
    unfold download_and_select_candidates
    rw [he]
  · intro urls hu hne hlt
    unfold download_and_select_candidates
    rw [hu]
    dsimp only
    rw [if_neg (by simp [hne])]
    rw [if_pos hlt]
  · intro urls hu hne hge hsaved
    unfold download_and_select_candidates
    rw [hu]
    dsimp only
    rw [if_neg (by simp [hne])]
    rw [if_neg hge]
    rw [if_pos hsaved]

/-- Claim C4 witness: the three failure paths at concrete oracles: a raised
    fetch, a one-candidate pool against count 3, and a promotion that saves
    only one of three files. -/
theorem claim4_witness :
    download_and_select_candidates
      ⟨Except.error "boom", fun _ _ => none, [], fun _ _ => [], fun _ => [],
        fun _ => []⟩ 3 = ([], ⟨false, false⟩) ∧
    download_and_select_candidates
      ⟨Except.ok ["u1"], fun i _ => some ("c" ++ Nat.repr i, 1), [], fun _ _ => [],
        fun _ => [], fun _ => []⟩ 3 = ([], ⟨false, false⟩) ∧
    download_and_select_candidates
      ⟨Except.ok ["u1", "u2", "u3"], fun i _ => some ("c" ++ Nat.repr i, 1),
        [("e", 5)], fun l _ => l.map Prod.fst, fun _ => ["f1"],
        fun _ => []⟩ 3 = ([], ⟨true, false⟩) :=
  ⟨(claim4_phase3_failure_paths
      ⟨Except.error "boom", fun _ _ => none, [], fun _ _ => [], fun _ => [],
        fun _ => []⟩ 3).1 "boom" rfl,
    (claim4_phase3_failure_paths
      ⟨Except.ok ["u1"], fun i _ => some ("c" ++ Nat.repr i, 1), [], fun _ _ => [],
        fun _ => [], fun _ => []⟩ 3).2.1 ["u1"] rfl rfl (by decide),
    (claim4_phase3_failure_paths
      ⟨Except.ok ["u1", "u2", "u3"], fun i _ => some ("c" ++ Nat.repr i, 1),
        [("e", 5)], fun l _ => l.map Prod.fst, fun _ => ["f1"],
        fun _ => []⟩ 3).2.2 ["u1", "u2", "u3"] rfl rfl (by decide) (by decide)⟩

end NovaViewLP
